import Mathlib

/-!
Verification of the assessment-analysis core (`assessment_analyzer.py`):
column classification, PII screening of column names, binary score
normalization and mastery aggregation. Tables are modelled column-wise,
cells as raw CSV text or the integers produced by the score conversion,
and the two regular expressions of the PII guard by an executable
backtracking matcher over character lists.
-/

deriving instance DecidableEq for Except

namespace AssessmentAnalyzer

/-- A cell of the spreadsheet: raw text as read from the CSV, or an
integer produced by the binary score conversion. -/
inductive Cell where
  | str (s : String)
  | num (n : Nat)
deriving DecidableEq

/-- Python `str(x)` on a cell value. -/
def cellText : Cell → String
  | .str s => s
  | .num n => toString n

/-- A pandas `DataFrame`, modelled as an ordered sequence of named columns. -/
abbrev Table := List (String × List Cell)

/-- The ordered column names of a table (`df.columns`). -/
def colNames (df : Table) : List String := df.map (fun p => p.1)

/-- Column selection `df[name]`; `none` models the pandas `KeyError`. -/
def getCol (df : Table) (name : String) : Option (List Cell) :=
  (df.find? (fun p => p.1 = name)).map (fun p => p.2)

/-- Column assignment `df[name] = cells` for a column that already exists. -/
def setCol (df : Table) (name : String) (cells : List Cell) : Table :=
  df.map (fun p => if p.1 = name then (p.1, cells) else p)

/-- `len(df)`: the number of rows of the table. -/
def nRows (df : Table) : Nat :=
  match df with
  | [] => 0
  | c :: _ => c.2.length

/-- Python `col[:-len(sfx)]`: drops the last `len(sfx)` characters, and is
the empty string when `sfx` is empty (since `col[:-0]` is `col[:0]`). -/
def sliceDropSuffix (col : String) (sfx : String) : String :=
  if sfx.data.length = 0 then "" else String.mk (col.data.take (col.data.length - sfx.data.length))

/-- `find_question_columns`: the base names (suffix stripped) of the columns
whose name ends with `sfx`, in original column order. -/
def find_question_columns (df : Table) (sfx : String) : List String :=
  (colNames df).filterMap (fun col =>
    if sfx.data.isSuffixOf col.data then some (sliceDropSuffix col sfx) else none)

/-- A processing failure: the pandas `KeyError` on a missing column, or a
non-numeric cell reaching the numeric row sum. -/
inductive PErr where
  | missingColumn (name : String)
  | nonNumeric (name : String)
deriving DecidableEq

/-- The binary conversion applied to each score cell:
`1 if str(x).startswith(pfx) else 0`. -/
def binCell (pfx : String) (x : Cell) : Cell :=
  if pfx.data.isPrefixOf (cellText x).data then Cell.num 1 else Cell.num 0

/-- The loop of `pre_process_scores`: for each question in turn, replace the
column named `q ++ sfx` by its binary conversion; fail on a missing column. -/
def preProcessGo (pfx sfx : String) (df : Table) : List String → Except PErr Table
  | [] => .ok df
  | q :: qs =>
    match getCol df (q ++ sfx) with
    | none => .error (.missingColumn (q ++ sfx))
    | some cells => preProcessGo pfx sfx (setCol df (q ++ sfx) (cells.map (binCell pfx))) qs

/-- `pre_process_scores`: convert every score column of the table to the
binary 1/0 representation. -/
def pre_process_scores (raw_df : Table) (question_list : List String) (pfx sfx : String) :
    Except PErr Table :=
  preProcessGo pfx sfx raw_df question_list

/-- A learning-target group as stored in session state. -/
structure Group where
  name : String
  questions : List String
  min_correct : Nat
  max_correct : Nat
deriving DecidableEq

/-- One analysis result, as appended by `run_mastery_analysis`. -/
structure AResult where
  name : String
  count : Nat
  total : Nat
  percent : String
deriving DecidableEq

/-- The numeric values of one column; fails if a cell is still raw text
(the numeric row sum would not apply). -/
def cellNumsOf (name : String) : List Cell → Except PErr (List Nat)
  | [] => .ok []
  | .num n :: rest =>
    match cellNumsOf name rest with
    | .ok ns => .ok (n :: ns)
    | .error e => .error e
  | .str _ :: _ => .error (.nonNumeric name)

/-- The selection `df[score_cols]` as numeric columns; a missing name is the
pandas `KeyError`. -/
def selectNumCols (df : Table) : List String → Except PErr (List (List Nat))
  | [] => .ok []
  | n :: ns =>
    match getCol df n with
    | none => .error (.missingColumn n)
    | some cells =>
      match cellNumsOf n cells with
      | .error e => .error e
      | .ok xs =>
        match selectNumCols df ns with
        | .error e => .error e
        | .ok rest => .ok (xs :: rest)

/-- `df[score_cols_to_sum].sum(axis=1)`: the per-row sums over the selected
score columns. -/
def rowSums (df : Table) (names : List String) : Except PErr (List Nat) :=
  match selectNumCols df names with
  | .error e => .error e
  | .ok cols =>
    .ok (cols.foldl (fun acc col => List.zipWith (fun a b => a + b) acc col)
      (List.replicate (nRows df) 0))

/-- The percentage string `f"{(count / total) * 100:.1f}%"`, computed as the
exact rational rounded (ties to even) to one decimal digit. -/
def fmtPercent (count total : Nat) : String :=
  let num := count * 1000
  let q := num / total
  let r := num % total
  let t :=
    if 2 * r < total then q
    else if total < 2 * r then q + 1
    else if q % 2 = 0 then q else q + 1
  toString (t / 10) ++ "." ++ toString (t % 10) ++ "%"

/-- The body of the `run_mastery_analysis` loop for one target group. -/
def analyzeGroup (df : Table) (sfx : String) (total : Nat) (g : Group) :
    Except PErr AResult :=
  let score_cols := g.questions.map (fun q => q ++ sfx)
  match rowSums df score_cols with
  | .error e => .error e
  | .ok sums =>
    let cnt := (sums.filter (fun s => g.min_correct ≤ s ∧ s ≤ g.max_correct)).length
    .ok { name := g.name, count := cnt, total := total, percent := fmtPercent cnt total }

/-- The `run_mastery_analysis` loop over the group list: results are
collected in order, and an exception abandons the whole run. -/
def runGroups (df : Table) (sfx : String) (total : Nat) : List Group → Except PErr (List AResult)
  | [] => .ok []
  | g :: gs =>
    match analyzeGroup df sfx total g with
    | .error e => .error e
    | .ok r =>
      match runGroups df sfx total gs with
      | .error e => .error e
      | .ok rs => .ok (r :: rs)

/-- `run_mastery_analysis`: per-group counts of students whose number of
correct answers lies in the group's inclusive range. -/
def run_mastery_analysis (processed_df : Table) (target_groups : List Group) (sfx : String) :
    Except PErr (List AResult) :=
  let total_students := nRows processed_df
  if total_students = 0 then .ok []
  else runGroups processed_df sfx total_students target_groups

/-- ASCII word character for the regex word boundary `\b`: `[A-Za-z0-9_]`. -/
def isWordChar (c : Char) : Bool :=
  ('a' ≤ c && c ≤ 'z') || ('A' ≤ c && c ≤ 'Z') || ('0' ≤ c && c ≤ '9') || c = '_'

/-- Whitespace, as in Python's `str.strip` and the regex class `\s`. -/
def isWS (c : Char) : Bool :=
  c = ' ' || c = '\t' || c = '\n' || c = '\r' || c = Char.ofNat 11 || c = Char.ofNat 12

/-- A backtracking matcher piece: given the last character consumed so far
and the rest of the input, all ways to consume a further prefix, each
result carrying its own last consumed character. -/
abbrev Matcher := Option Char → List Char → List (Option Char × List Char)

/-- A single literal character, compared case-insensitively. -/
def mlit (c : Char) : Matcher := fun _ s =>
  match s with
  | [] => []
  | x :: xs => if x.toLower = c.toLower then [(some x, xs)] else []

/-- A single character of a class. -/
def mcls (f : Char → Bool) : Matcher := fun _ s =>
  match s with
  | [] => []
  | x :: xs => if f x then [(some x, xs)] else []

/-- Sequencing of two pattern pieces. -/
def mseq (p q : Matcher) : Matcher := fun l s =>
  (p l s).flatMap (fun r => q r.1 r.2)

/-- Alternation of two pattern pieces. -/
def malt (p q : Matcher) : Matcher := fun l s => p l s ++ q l s

/-- An optional pattern piece (`?`). -/
def mopt (p : Matcher) : Matcher := fun l s => (l, s) :: p l s

/-- Zero or more characters of a class (`[..]*`). -/
def mstarCls (f : Char → Bool) : Option Char → List Char → List (Option Char × List Char)
  | l, [] => [(l, [])]
  | l, x :: xs => (l, x :: xs) :: (if f x then mstarCls f (some x) xs else [])

/-- One or more characters of a class (`[..]+`). -/
def mplusCls (f : Char → Bool) : Matcher := mseq (mcls f) (mstarCls f)

/-- A literal word, character by character. -/
def mstr : List Char → Matcher
  | [] => fun l s => [(l, s)]
  | c :: cs => mseq (mlit c) (mstr cs)

/-- The trailing word boundary `\b` at a match result: the word-ness of the
last consumed character must differ from that of the next character. -/
def endBoundary : Option Char × List Char → Bool
  | (none, _) => false
  | (some c, []) => isWordChar c
  | (some c, d :: _) => isWordChar c != isWordChar d

/-- `re.search` of a pattern of the shape `\b(...)\b` whose alternatives all
start with a word character: try every position whose preceding character is
not a word character, and accept a match ending at a word boundary. -/
def searchAux (p : Matcher) : Bool → List Char → Bool
  | pok, [] => pok && (p none []).any endBoundary
  | pok, c :: rest =>
    (pok && (p none (c :: rest)).any endBoundary) || searchAux p (!isWordChar c) rest

/-- Search from the start of the string (the start is a valid boundary
position for a pattern beginning with a word character). -/
def reSearch (p : Matcher) (s : List Char) : Bool := searchAux p true s

/-- The character class `[_\s]` of the allowlist pattern. -/
def sepChar (c : Char) : Bool := c = '_' || isWS c

/-- `PII_ALLOWLIST_PATTERN`, the compiled regex
`\b(student[_\s]*assess(ment)?[_\s]*id|student[_\s]*id|studentid|sid)\b`
with `re.IGNORECASE`. -/
def PII_ALLOWLIST_PATTERN : Matcher :=
  malt
    (mseq (mstr ("student".data)) (mseq (mstarCls sepChar)
      (mseq (mstr ("assess".data)) (mseq (mopt (mstr ("ment".data)))
        (mseq (mstarCls sepChar) (mstr ("id".data)))))))
    (malt
      (mseq (mstr ("student".data)) (mseq (mstarCls sepChar) (mstr ("id".data))))
      (malt (mstr ("studentid".data)) (mstr ("sid".data))))

/-- The compiled regex `\bemail\b` with `re.IGNORECASE`. -/
def BP_EMAIL : Matcher := mstr ("email".data)

/-- The compiled regex `\b(phone|mobile|cell)\b`. -/
def BP_PHONE : Matcher :=
  malt (mstr ("phone".data)) (malt (mstr ("mobile".data)) (mstr ("cell".data)))

/-- The compiled regex `\b(ssn|social\s+security)\b`. -/
def BP_SSN : Matcher :=
  malt (mstr ("ssn".data))
    (mseq (mstr ("social".data)) (mseq (mplusCls isWS) (mstr ("security".data))))

/-- The compiled regex
`\b(address|street|st\.?|ave|road|rd\.?|apartment|apt\.?|unit)\b`. -/
def BP_ADDRESS : Matcher :=
  malt (mstr ("address".data)) (malt (mstr ("street".data))
    (malt (mseq (mstr ("st".data)) (mopt (mlit '.')))
    (malt (mstr ("ave".data)) (malt (mstr ("road".data))
    (malt (mseq (mstr ("rd".data)) (mopt (mlit '.')))
    (malt (mstr ("apartment".data))
    (malt (mseq (mstr ("apt".data)) (mopt (mlit '.'))) (mstr ("unit".data)))))))))

/-- The compiled regex
`\b(first\s+name|last\s+name|full\s+name|student\s+name|guardian)\b`. -/
def BP_NAMES : Matcher :=
  malt (mseq (mstr ("first".data)) (mseq (mplusCls isWS) (mstr ("name".data))))
    (malt (mseq (mstr ("last".data)) (mseq (mplusCls isWS) (mstr ("name".data))))
    (malt (mseq (mstr ("full".data)) (mseq (mplusCls isWS) (mstr ("name".data))))
    (malt (mseq (mstr ("student".data)) (mseq (mplusCls isWS) (mstr ("name".data))))
      (mstr ("guardian".data)))))

/-- The compiled regex `\b(dob|date\s+of\s+birth|birth\s+date)\b`. -/
def BP_DOB : Matcher :=
  malt (mstr ("dob".data))
    (malt (mseq (mstr ("date".data)) (mseq (mplusCls isWS)
        (mseq (mstr ("of".data)) (mseq (mplusCls isWS) (mstr ("birth".data))))))
      (mseq (mstr ("birth".data)) (mseq (mplusCls isWS) (mstr ("date".data)))))

/-- `PII_BLOCKLIST_PATTERNS`: the six compiled block regexes, in order. -/
def PII_BLOCKLIST_PATTERNS : List Matcher :=
  [ BP_EMAIL, BP_PHONE, BP_SSN, BP_ADDRESS, BP_NAMES, BP_DOB ]

/-- Python `str.strip()`: remove leading and trailing whitespace. -/
def pyStrip (cs : List Char) : List Char :=
  ((cs.dropWhile isWS).reverse.dropWhile isWS).reverse

/-- The `.replace("_", " ")` step, character by character. -/
def underscoreToSpace (c : Char) : Char := if c = '_' then ' ' else c

/-- `re.sub(r"\s+", " ", s)`: collapse every whitespace run to a single
space; the flag records whether the previous character was whitespace. -/
def collapseWS : Bool → List Char → List Char
  | _, [] => []
  | afterWS, c :: rest =>
    if isWS c then
      if afterWS then collapseWS true rest
      else ' ' :: collapseWS true rest
    else c :: collapseWS false rest

/-- The normalization of a column name in `validate_pii`:
`re.sub(r"\s+", " ", col.strip().lower().replace("_", " "))`. -/
def normalizeName (cs : List Char) : List Char :=
  collapseWS false (((pyStrip cs).map Char.toLower).map underscoreToSpace)

/-- Whether some blocklist pattern matches the normalized name (the loop
over `PII_BLOCKLIST_PATTERNS` with its early `break`). -/
def blockFlag (normalized : List Char) : Bool :=
  PII_BLOCKLIST_PATTERNS.any (fun p => reSearch p normalized)

/-- The per-column test of `validate_pii`: a column is offending when it
escapes the allowlist and matches some blocklist pattern. -/
def offendingCol (col : String) : Bool :=
  let normalized := normalizeName col.data
  !reSearch PII_ALLOWLIST_PATTERN normalized && blockFlag normalized

/-- `validate_pii`: returns `(is_valid, offending_columns)`. -/
def validate_pii (columns : List String) : Bool × List String :=
  let offending := columns.filter offendingCol
  (offending.isEmpty, offending)

/-- The classifier as worded by the spec: the base names — the column name
with the trailing `len(sfx)` characters removed — of the columns ending
with `sfx`, in original order. -/
def specClassify (columns : List String) (sfx : String) : List String :=
  columns.filterMap (fun col =>
    if sfx.data.isSuffixOf col.data then
      some (String.mk (col.data.take (col.data.length - sfx.data.length)))
    else none)

/-- The fixed allowlist synonyms named by the spec. -/
def ALLOW_SYNONYMS : List (List Char) :=
  [ "student id".data, "student assessment id".data, "studentid".data, "sid".data ]

/-- The spec-side allow test: a case-insensitive word-boundary occurrence
of one of the fixed synonyms. -/
def specAllowMatch (s : List Char) : Bool :=
  ALLOW_SYNONYMS.any (fun w => reSearch (mstr w) s)

/-- The block-pattern tokens as listed by the spec. -/
def BLOCK_TOKENS : List (List Char) :=
  [ "email".data, "phone".data, "mobile".data, "cell".data, "ssn".data,
    "social security".data, "address".data, "street".data, "st".data,
    "ave".data, "road".data, "rd".data, "apartment".data, "apt".data,
    "unit".data, "first name".data, "last name".data, "full name".data,
    "student name".data, "guardian".data, "dob".data, "date of birth".data,
    "birth date".data ]

/-- The spec-side block test: a case-insensitive word-boundary occurrence
of one of the block tokens. -/
def specBlockMatch (s : List Char) : Bool :=
  BLOCK_TOKENS.any (fun w => reSearch (mstr w) s)

/-- Result inclusion between matcher pieces: every way for `p` to consume a
prefix is also available to `q`. -/
def Incl (p q : Matcher) : Prop :=
  ∀ l s r, r ∈ p l s → r ∈ q l s

theorem char_toNat_ofNat_valid (n : Nat) (h : n.isValidChar) : (Char.ofNat n).toNat = n := by
  simp [Char.ofNat, h, Char.ofNatAux, Char.toNat, UInt32.toNat]

theorem toLower_eq_space (x : Char) (h : x.toLower = ' ') : x = ' ' := by
  simp only [Char.toLower] at h
  split at h
  · exfalso
    have hvalid : (x.toNat + 32).isValidChar := by
      unfold Nat.isValidChar
      left
      omega
    have h2 := congrArg Char.toNat h
    rw [char_toNat_ofNat_valid _ hvalid] at h2
    have h3 : (' ').toNat = 32 := by decide
    omega
  · exact h

theorem incl_refl (p : Matcher) : Incl p p := fun _ _ _ h => h

theorem incl_trans {p q r : Matcher} (h1 : Incl p q) (h2 : Incl q r) : Incl p r :=
  fun l s x hx => h2 l s x (h1 l s x hx)

theorem incl_of_eq {p q : Matcher} (h : ∀ l s, p l s = q l s) : Incl p q :=
  fun l s _ hx => (h l s) ▸ hx

theorem incl_malt_left (p q : Matcher) : Incl p (malt p q) :=
  fun _ _ _ h => List.mem_append_left _ h

theorem incl_malt_right (p q : Matcher) : Incl q (malt p q) :=
  fun _ _ _ h => List.mem_append_right _ h

theorem incl_mseq {p p' q q' : Matcher} (hp : Incl p p') (hq : Incl q q') :
    Incl (mseq p q) (mseq p' q') := by
  intro l s r h
  simp only [mseq, List.mem_flatMap] at h ⊢
  obtain ⟨mid, hm, hr⟩ := h
  exact ⟨mid, hp _ _ _ hm, hq _ _ _ hr⟩

theorem incl_mopt (p : Matcher) : Incl p (mopt p) :=
  fun _ _ _ h => List.mem_cons_of_mem _ h

theorem self_mem_mstarCls (f : Char → Bool) (l : Option Char) (s : List Char) :
    (l, s) ∈ mstarCls f l s := by
  cases s <;> simp [mstarCls]

theorem mstr_append (a b : List Char) (l : Option Char) (s : List Char) :
    mstr (a ++ b) l s = mseq (mstr a) (mstr b) l s := by
  induction a generalizing l s with
  | nil =>
    simp [mstr, mseq]
  | cons c cs ih =>
    simp only [List.cons_append, mstr, mseq]
    have hfun : (fun r : Option Char × List Char => mstr (cs ++ b) r.1 r.2) =
        fun r => (mstr cs r.1 r.2).flatMap (fun r2 => mstr b r2.1 r2.2) :=
      funext (fun r => ih r.1 r.2)
    rw [List.flatMap_assoc]
    exact congrArg _ hfun

theorem incl_mstr_append {a b : List Char} {P Q : Matcher}
    (ha : Incl (mstr a) P) (hb : Incl (mstr b) Q) :
    Incl (mstr (a ++ b)) (mseq P Q) :=
  incl_trans (incl_of_eq (mstr_append a b)) (incl_mseq ha hb)

theorem incl_space_mstarCls (f : Char → Bool) (hf : f ' ' = true) :
    Incl (mstr [' ']) (mstarCls f) := by
  intro l s r h
  cases s with
  | nil => simp [mstr, mseq, mlit] at h
  | cons x xs =>
    simp only [mstr, mseq, mlit] at h
    by_cases hx : x.toLower = ' '.toLower
    · rw [if_pos hx] at h
      simp at h
      have hsp : x = ' ' := toLower_eq_space x (by simpa using hx)
      subst hsp
      rw [h]
      simp only [mstarCls, hf, if_pos]
      exact List.mem_cons_of_mem _ (self_mem_mstarCls f (some ' ') xs)
    · rw [if_neg hx] at h
      simp at h

theorem incl_space_mplusCls (f : Char → Bool) (hf : f ' ' = true) :
    Incl (mstr [' ']) (mplusCls f) := by
  intro l s r h
  cases s with
  | nil => simp [mstr, mseq, mlit] at h
  | cons x xs =>
    simp only [mstr, mseq, mlit] at h
    by_cases hx : x.toLower = ' '.toLower
    · rw [if_pos hx] at h
      simp at h
      have hsp : x = ' ' := toLower_eq_space x (by simpa using hx)
      subst hsp
      rw [h]
      simp only [mplusCls, mseq, mcls, hf, if_pos]
      simp
      exact self_mem_mstarCls f (some ' ') xs
    · rw [if_neg hx] at h
      simp at h

theorem incl_mseq_starL {q : Matcher} (f : Char → Bool) :
    Incl q (mseq (mstarCls f) q) := by
  intro l s r h
  simp only [mseq, List.mem_flatMap]
  exact ⟨(l, s), self_mem_mstarCls f l s, h⟩

theorem searchAux_incl {p q : Matcher} (h : Incl p q) :
    ∀ (s : List Char) (pok : Bool), searchAux p pok s = true → searchAux q pok s = true := by
  intro s
  induction s with
  | nil =>
    intro pok hs
    simp only [searchAux, Bool.and_eq_true, List.any_eq_true] at hs ⊢
    obtain ⟨hpok, r, hr, hb⟩ := hs
    exact ⟨hpok, r, h _ _ _ hr, hb⟩
  | cons c rest ih =>
    intro pok hs
    simp only [searchAux, Bool.or_eq_true, Bool.and_eq_true, List.any_eq_true] at hs ⊢
    rcases hs with ⟨hpok, r, hr, hb⟩ | hrec
    · exact Or.inl ⟨hpok, r, h _ _ _ hr, hb⟩
    · exact Or.inr (ih _ hrec)

theorem reSearch_incl {p q : Matcher} (h : Incl p q) {s : List Char}
    (hs : reSearch p s = true) : reSearch q s = true :=
  searchAux_incl h s true hs

theorem incl_mseq_optR {p : Matcher} (q : Matcher) : Incl p (mseq p (mopt q)) := by
  intro l s r h
  simp only [mseq, List.mem_flatMap]
  refine ⟨r, h, ?_⟩
  simp [mopt]

theorem incl_tok_student_id : Incl (mstr ("student id".data)) PII_ALLOWLIST_PATTERN := by
  unfold PII_ALLOWLIST_PATTERN
  have hdec : "student id".data = "student".data ++ ([' '] ++ "id".data) := by decide
  rw [hdec]
  apply incl_trans
    (q := mseq (mstr ("student".data)) (mseq (mstarCls sepChar) (mstr ("id".data))))
  · exact incl_mstr_append (incl_refl _)
      (incl_mstr_append (incl_space_mstarCls _ (by decide)) (incl_refl _))
  · exact incl_trans (incl_malt_left _ _) (incl_malt_right _ _)

theorem incl_tok_student_assessment_id :
    Incl (mstr ("student assessment id".data)) PII_ALLOWLIST_PATTERN := by
  unfold PII_ALLOWLIST_PATTERN
  have hdec : "student assessment id".data =
      "student".data ++ ([' '] ++ ("assess".data ++ ("ment".data ++ ([' '] ++ "id".data)))) := by
    decide
  rw [hdec]
  apply incl_trans
    (q := mseq (mstr ("student".data)) (mseq (mstarCls sepChar)
      (mseq (mstr ("assess".data)) (mseq (mopt (mstr ("ment".data)))
        (mseq (mstarCls sepChar) (mstr ("id".data)))))))
  · exact incl_mstr_append (incl_refl _)
      (incl_mstr_append (incl_space_mstarCls _ (by decide))
        (incl_mstr_append (incl_refl _)
          (incl_mstr_append (incl_mopt _)
            (incl_mstr_append (incl_space_mstarCls _ (by decide)) (incl_refl _)))))
  · exact incl_malt_left _ _

theorem incl_tok_studentid : Incl (mstr ("studentid".data)) PII_ALLOWLIST_PATTERN := by
  unfold PII_ALLOWLIST_PATTERN
  exact incl_trans (incl_malt_left _ _)
    (incl_trans (incl_malt_right _ _) (incl_malt_right _ _))

theorem incl_tok_sid : Incl (mstr ("sid".data)) PII_ALLOWLIST_PATTERN := by
  unfold PII_ALLOWLIST_PATTERN
  exact incl_trans (incl_malt_right _ _)
    (incl_trans (incl_malt_right _ _) (incl_malt_right _ _))

theorem incl_space_word_mplusCls {a b : List Char} :
    Incl (mstr (a ++ ([' '] ++ b))) (mseq (mstr a) (mseq (mplusCls isWS) (mstr b))) :=
  incl_mstr_append (incl_refl _)
    (incl_mstr_append (incl_space_mplusCls _ (by decide)) (incl_refl _))

theorem incl_blk_email : Incl (mstr ("email".data)) BP_EMAIL := incl_refl _

theorem incl_blk_phone : Incl (mstr ("phone".data)) BP_PHONE := incl_malt_left _ _

theorem incl_blk_mobile : Incl (mstr ("mobile".data)) BP_PHONE :=
  incl_trans (incl_malt_left _ _) (incl_malt_right _ _)

theorem incl_blk_cell : Incl (mstr ("cell".data)) BP_PHONE :=
  incl_trans (incl_malt_right _ _) (incl_malt_right _ _)

theorem incl_blk_ssn : Incl (mstr ("ssn".data)) BP_SSN := incl_malt_left _ _

theorem incl_blk_social_security : Incl (mstr ("social security".data)) BP_SSN := by
  unfold BP_SSN
  have hdec : "social security".data = "social".data ++ ([' '] ++ "security".data) := by decide
  rw [hdec]
  exact incl_trans incl_space_word_mplusCls (incl_malt_right _ _)

theorem incl_blk_address : Incl (mstr ("address".data)) BP_ADDRESS := incl_malt_left _ _

theorem incl_blk_street : Incl (mstr ("street".data)) BP_ADDRESS :=
  incl_trans (incl_malt_left _ _) (incl_malt_right _ _)

theorem incl_blk_st : Incl (mstr ("st".data)) BP_ADDRESS :=
  incl_trans (incl_mseq_optR _)
    (incl_trans (incl_malt_left _ _)
      (incl_trans (incl_malt_right _ _) (incl_malt_right _ _)))

theorem incl_blk_ave : Incl (mstr ("ave".data)) BP_ADDRESS :=
  incl_trans (incl_malt_left _ _)
    (incl_trans (incl_malt_right _ _)
      (incl_trans (incl_malt_right _ _) (incl_malt_right _ _)))

theorem incl_blk_road : Incl (mstr ("road".data)) BP_ADDRESS :=
  incl_trans (incl_malt_left _ _)
    (incl_trans (incl_malt_right _ _)
      (incl_trans (incl_malt_right _ _)
        (incl_trans (incl_malt_right _ _) (incl_malt_right _ _))))

theorem incl_blk_rd : Incl (mstr ("rd".data)) BP_ADDRESS :=
  incl_trans (incl_mseq_optR _)
    (incl_trans (incl_malt_left _ _)
      (incl_trans (incl_malt_right _ _)
        (incl_trans (incl_malt_right _ _)
          (incl_trans (incl_malt_right _ _)
            (incl_trans (incl_malt_right _ _) (incl_malt_right _ _))))))

theorem incl_blk_apartment : Incl (mstr ("apartment".data)) BP_ADDRESS :=
  incl_trans (incl_malt_left _ _)
    (incl_trans (incl_malt_right _ _)
      (incl_trans (incl_malt_right _ _)
        (incl_trans (incl_malt_right _ _)
          (incl_trans (incl_malt_right _ _)
            (incl_trans (incl_malt_right _ _) (incl_malt_right _ _))))))

theorem incl_blk_apt : Incl (mstr ("apt".data)) BP_ADDRESS :=
  incl_trans (incl_mseq_optR _)
    (incl_trans (incl_malt_left _ _)
      (incl_trans (incl_malt_right _ _)
        (incl_trans (incl_malt_right _ _)
          (incl_trans (incl_malt_right _ _)
            (incl_trans (incl_malt_right _ _)
              (incl_trans (incl_malt_right _ _)
                (incl_trans (incl_malt_right _ _) (incl_malt_right _ _))))))))

theorem incl_blk_unit : Incl (mstr ("unit".data)) BP_ADDRESS :=
  incl_trans (incl_malt_right _ _)
    (incl_trans (incl_malt_right _ _)
      (incl_trans (incl_malt_right _ _)
        (incl_trans (incl_malt_right _ _)
          (incl_trans (incl_malt_right _ _)
            (incl_trans (incl_malt_right _ _)
              (incl_trans (incl_malt_right _ _) (incl_malt_right _ _)))))))

theorem incl_blk_first_name : Incl (mstr ("first name".data)) BP_NAMES := by
  unfold BP_NAMES
  have hdec : "first name".data = "first".data ++ ([' '] ++ "name".data) := by decide
  rw [hdec]
  exact incl_trans incl_space_word_mplusCls (incl_malt_left _ _)

theorem incl_blk_last_name : Incl (mstr ("last name".data)) BP_NAMES := by
  unfold BP_NAMES
  have hdec : "last name".data = "last".data ++ ([' '] ++ "name".data) := by decide
  rw [hdec]
  exact incl_trans incl_space_word_mplusCls
    (incl_trans (incl_malt_left _ _) (incl_malt_right _ _))

theorem incl_blk_full_name : Incl (mstr ("full name".data)) BP_NAMES := by
  unfold BP_NAMES
  have hdec : "full name".data = "full".data ++ ([' '] ++ "name".data) := by decide
  rw [hdec]
  exact incl_trans incl_space_word_mplusCls
    (incl_trans (incl_malt_left _ _)
      (incl_trans (incl_malt_right _ _) (incl_malt_right _ _)))

theorem incl_blk_student_name : Incl (mstr ("student name".data)) BP_NAMES := by
  unfold BP_NAMES
  have hdec : "student name".data = "student".data ++ ([' '] ++ "name".data) := by decide
  rw [hdec]
  exact incl_trans incl_space_word_mplusCls
    (incl_trans (incl_malt_left _ _)
      (incl_trans (incl_malt_right _ _)
        (incl_trans (incl_malt_right _ _) (incl_malt_right _ _))))

theorem incl_blk_guardian : Incl (mstr ("guardian".data)) BP_NAMES :=
  incl_trans (incl_malt_right _ _)
    (incl_trans (incl_malt_right _ _)
      (incl_trans (incl_malt_right _ _) (incl_malt_right _ _)))

theorem incl_blk_dob : Incl (mstr ("dob".data)) BP_DOB := incl_malt_left _ _

theorem incl_blk_date_of_birth : Incl (mstr ("date of birth".data)) BP_DOB := by
  unfold BP_DOB
  have hdec : "date of birth".data =
      "date".data ++ ([' '] ++ ("of".data ++ ([' '] ++ "birth".data))) := by decide
  rw [hdec]
  apply incl_trans
    (q := mseq (mstr ("date".data)) (mseq (mplusCls isWS)
      (mseq (mstr ("of".data)) (mseq (mplusCls isWS) (mstr ("birth".data))))))
  · exact incl_mstr_append (incl_refl _)
      (incl_mstr_append (incl_space_mplusCls _ (by decide)) incl_space_word_mplusCls)
  · exact incl_trans (incl_malt_left _ _) (incl_malt_right _ _)

theorem incl_blk_birth_date : Incl (mstr ("birth date".data)) BP_DOB := by
  unfold BP_DOB
  have hdec : "birth date".data = "birth".data ++ ([' '] ++ "date".data) := by decide
  rw [hdec]
  exact incl_trans incl_space_word_mplusCls
    (incl_trans (incl_malt_right _ _) (incl_malt_right _ _))

theorem blockFlag_of_spec {s : List Char} (h : specBlockMatch s = true) :
    blockFlag s = true := by
  have hb : ∀ p, p ∈ PII_BLOCKLIST_PATTERNS → reSearch p s = true → blockFlag s = true :=
    fun p hp hs => List.any_eq_true.mpr ⟨p, hp, hs⟩
  have m1 : BP_EMAIL ∈ PII_BLOCKLIST_PATTERNS := by simp [PII_BLOCKLIST_PATTERNS]
  have m2 : BP_PHONE ∈ PII_BLOCKLIST_PATTERNS := by simp [PII_BLOCKLIST_PATTERNS]
  have m3 : BP_SSN ∈ PII_BLOCKLIST_PATTERNS := by simp [PII_BLOCKLIST_PATTERNS]
  have m4 : BP_ADDRESS ∈ PII_BLOCKLIST_PATTERNS := by simp [PII_BLOCKLIST_PATTERNS]
  have m5 : BP_NAMES ∈ PII_BLOCKLIST_PATTERNS := by simp [PII_BLOCKLIST_PATTERNS]
  have m6 : BP_DOB ∈ PII_BLOCKLIST_PATTERNS := by simp [PII_BLOCKLIST_PATTERNS]
  simp only [specBlockMatch, BLOCK_TOKENS, List.any_cons, List.any_nil,
    Bool.or_eq_true, Bool.or_false] at h
  rcases h with h|h|h|h|h|h|h|h|h|h|h|h|h|h|h|h|h|h|h|h|h|h|h
  · exact hb _ m1 (reSearch_incl incl_blk_email h)
  · exact hb _ m2 (reSearch_incl incl_blk_phone h)
  · exact hb _ m2 (reSearch_incl incl_blk_mobile h)
  · exact hb _ m2 (reSearch_incl incl_blk_cell h)
  · exact hb _ m3 (reSearch_incl incl_blk_ssn h)
  · exact hb _ m3 (reSearch_incl incl_blk_social_security h)
  · exact hb _ m4 (reSearch_incl incl_blk_address h)
  · exact hb _ m4 (reSearch_incl incl_blk_street h)
  · exact hb _ m4 (reSearch_incl incl_blk_st h)
  · exact hb _ m4 (reSearch_incl incl_blk_ave h)
  · exact hb _ m4 (reSearch_incl incl_blk_road h)
  · exact hb _ m4 (reSearch_incl incl_blk_rd h)
  · exact hb _ m4 (reSearch_incl incl_blk_apartment h)
  · exact hb _ m4 (reSearch_incl incl_blk_apt h)
  · exact hb _ m4 (reSearch_incl incl_blk_unit h)
  · exact hb _ m5 (reSearch_incl incl_blk_first_name h)
  · exact hb _ m5 (reSearch_incl incl_blk_last_name h)
  · exact hb _ m5 (reSearch_incl incl_blk_full_name h)
  · exact hb _ m5 (reSearch_incl incl_blk_student_name h)
  · exact hb _ m5 (reSearch_incl incl_blk_guardian h)
  · exact hb _ m6 (reSearch_incl incl_blk_dob h)
  · exact hb _ m6 (reSearch_incl incl_blk_date_of_birth h)
  · exact hb _ m6 (reSearch_incl incl_blk_birth_date h)

theorem allowlist_of_spec {s : List Char} (h : specAllowMatch s = true) :
    reSearch PII_ALLOWLIST_PATTERN s = true := by
  simp only [specAllowMatch, ALLOW_SYNONYMS, List.any_cons, List.any_nil,
    Bool.or_eq_true, Bool.or_false] at h
  rcases h with h | h | h | h
  · exact reSearch_incl incl_tok_student_id h
  · exact reSearch_incl incl_tok_student_assessment_id h
  · exact reSearch_incl incl_tok_studentid h
  · exact reSearch_incl incl_tok_sid h

theorem str_append_right_cancel {a b c : String} (h : a ++ c = b ++ c) : a = b := by
  apply String.ext
  have hd := congrArg String.data h
  rw [String.data_append, String.data_append] at hd
  exact List.append_cancel_right hd

theorem colNames_setCol (df : Table) (n : String) (v : List Cell) :
    colNames (setCol df n v) = colNames df := by
  unfold colNames setCol
  rw [List.map_map]
  apply List.map_congr_left
  intro p _
  by_cases hp : p.1 = n <;> simp [hp, Function.comp]

theorem getCol_setCol_self (df : Table) (n : String) (v cells : List Cell)
    (h : getCol df n = some cells) : getCol (setCol df n v) n = some v := by
  induction df with
  | nil => simp [getCol] at h
  | cons p rest ih =>
    by_cases hp : p.1 = n
    · simp [getCol, setCol, hp]
    · simp only [setCol, List.map_cons, if_neg hp]
      simp only [getCol] at h ⊢
      rw [List.find?_cons_of_neg _ (by simpa using hp)] at h ⊢
      exact ih h

theorem getCol_setCol_ne (df : Table) (n n' : String) (v : List Cell)
    (h : n' ≠ n) : getCol (setCol df n v) n' = getCol df n' := by
  induction df with
  | nil => rfl
  | cons p rest ih =>
    simp only [setCol, List.map_cons]
    by_cases hpn : p.1 = n
    · rw [if_pos hpn]
      have hp : ¬p.1 = n' := by rw [hpn]; exact fun he => h he.symm
      simp only [getCol]
      rw [List.find?_cons_of_neg _ (by simpa using hp),
        List.find?_cons_of_neg _ (by simpa using hp)]
      exact ih
    · rw [if_neg hpn]
      simp only [getCol]
      by_cases hp : p.1 = n'
      · rw [List.find?_cons_of_pos _ (by simpa using hp),
          List.find?_cons_of_pos _ (by simpa using hp)]
      · rw [List.find?_cons_of_neg _ (by simpa using hp),
          List.find?_cons_of_neg _ (by simpa using hp)]
        exact ih

theorem getCol_eq_none (df : Table) (n : String) :
    getCol df n = none ↔ n ∉ colNames df := by
  induction df with
  | nil => simp [getCol, colNames]
  | cons p rest ih =>
    by_cases hp : p.1 = n
    · simp [getCol, colNames, hp]
    · simp only [getCol, colNames, List.map_cons, List.mem_cons]
      rw [List.find?_cons_of_neg _ (by simpa using hp)]
      simp only [getCol, colNames] at ih
      rw [ih]
      constructor
      · intro hn hor
        rcases hor with heq | hmem
        · exact hp heq.symm
        · exact hn hmem
      · intro hn hmem
        exact hn (Or.inr hmem)

theorem getCol_some_of_mem {df : Table} {n : String} (h : n ∈ colNames df) :
    ∃ cells, getCol df n = some cells := by
  cases hg : getCol df n with
  | none => exact absurd h ((getCol_eq_none df n).mp hg)
  | some cells => exact ⟨cells, rfl⟩

theorem mem_colNames_of_getCol {df : Table} {n : String} {cells : List Cell}
    (h : getCol df n = some cells) : n ∈ colNames df := by
  by_contra hmem
  rw [← getCol_eq_none df n] at hmem
  rw [h] at hmem
  exact Option.noConfusion hmem

theorem preProcessGo_missing (pfx sfx : String) :
    ∀ (qs : List String) (df : Table), (∃ q ∈ qs, (q ++ sfx) ∉ colNames df) →
    ∃ name, preProcessGo pfx sfx df qs = .error (.missingColumn name) := by
  intro qs
  induction qs with
  | nil =>
    intro df h
    simp at h
  | cons q rest ih =>
    intro df h
    cases hg : getCol df (q ++ sfx) with
    | none =>
      refine ⟨q ++ sfx, ?_⟩
      simp [preProcessGo, hg]
    | some cells =>
      obtain ⟨q', hq', hmem⟩ := h
      rcases List.mem_cons.mp hq' with rfl | hq'rest
      · exact absurd (mem_colNames_of_getCol hg) hmem
      · have hrec := ih (setCol df (q ++ sfx) (cells.map (binCell pfx)))
          ⟨q', hq'rest, by rw [colNames_setCol]; exact hmem⟩
        obtain ⟨name, hname⟩ := hrec
        refine ⟨name, ?_⟩
        simp only [preProcessGo, hg]
        exact hname

theorem preProcessGo_ok (pfx sfx : String) :
    ∀ (qs : List String) (df : Table), qs.Nodup →
    (∀ q ∈ qs, (q ++ sfx) ∈ colNames df) →
    ∃ out, preProcessGo pfx sfx df qs = .ok out ∧
      colNames out = colNames df ∧
      (∀ q ∈ qs, ∃ cells, getCol df (q ++ sfx) = some cells ∧
        getCol out (q ++ sfx) = some (cells.map (binCell pfx))) ∧
      (∀ name, (∀ q ∈ qs, name ≠ q ++ sfx) → getCol out name = getCol df name) := by
  intro qs
  induction qs with
  | nil =>
    intro df _ _
    exact ⟨df, rfl, rfl, by simp, fun _ _ => rfl⟩
  | cons q rest ih =>
    intro df hnd hpres
    obtain ⟨cells, hcells⟩ := getCol_some_of_mem (hpres q (List.mem_cons_self q rest))
    have hndq : q ∉ rest := (List.nodup_cons.mp hnd).1
    have hndrest : rest.Nodup := (List.nodup_cons.mp hnd).2
    have hpres1 : ∀ q' ∈ rest, (q' ++ sfx) ∈
        colNames (setCol df (q ++ sfx) (cells.map (binCell pfx))) := by
      intro q' hq'
      rw [colNames_setCol]
      exact hpres q' (List.mem_cons_of_mem _ hq')
    obtain ⟨out, hrun, hnames, hscores, hothers⟩ :=
      ih (setCol df (q ++ sfx) (cells.map (binCell pfx))) hndrest hpres1
    refine ⟨out, ?_, ?_, ?_, ?_⟩
    · simp only [preProcessGo, hcells]
      exact hrun
    · rw [hnames, colNames_setCol]
    · intro q' hq'
      rcases List.mem_cons.mp hq' with rfl | hq'rest
      · refine ⟨cells, hcells, ?_⟩
        have hne : ∀ q2 ∈ rest, (q' ++ sfx) ≠ q2 ++ sfx := by
          intro q2 hq2 heq
          exact hndq (str_append_right_cancel heq ▸ hq2)
        rw [hothers (q' ++ sfx) hne]
        exact getCol_setCol_self df (q' ++ sfx) _ cells hcells
      · obtain ⟨cells', hc1, hc2⟩ := hscores q' hq'rest
        have hne : (q' ++ sfx) ≠ (q ++ sfx) := by
          intro heq
          exact hndq (str_append_right_cancel heq ▸ hq'rest)
        rw [getCol_setCol_ne df (q ++ sfx) (q' ++ sfx) _ hne] at hc1
        exact ⟨cells', hc1, hc2⟩
    · intro name hname
      rw [hothers name (fun q' hq' => hname q' (List.mem_cons_of_mem _ hq'))]
      exact getCol_setCol_ne df (q ++ sfx) name _ (hname q (List.mem_cons_self q rest))

theorem cellNumsOf_ok (name : String) :
    ∀ (cells : List Cell), (∀ c ∈ cells, c = Cell.num 0 ∨ c = Cell.num 1) →
    ∃ ns, cellNumsOf name cells = .ok ns ∧ ns.length = cells.length ∧ ∀ x ∈ ns, x ≤ 1 := by
  intro cells
  induction cells with
  | nil =>
    intro _
    exact ⟨[], rfl, rfl, by simp⟩
  | cons c rest ih =>
    intro hbin
    obtain ⟨ns, hns, hlen, hbound⟩ := ih (fun x hx => hbin x (List.mem_cons_of_mem _ hx))
    have hc := hbin c (List.mem_cons_self c rest)
    have hstep : ∀ m, m ≤ 1 → ∃ ns2, cellNumsOf name (Cell.num m :: rest) = .ok ns2 ∧
        ns2.length = (Cell.num m :: rest).length ∧ ∀ x ∈ ns2, x ≤ 1 := by
      intro m hm
      refine ⟨m :: ns, ?_, ?_, ?_⟩
      · simp [cellNumsOf, hns]
      · simp [hlen]
      · intro x hx
        rcases List.mem_cons.mp hx with rfl | h2
        · exact hm
        · exact hbound x h2
    rcases hc with rfl | rfl
    · exact hstep 0 (by omega)
    · exact hstep 1 (by omega)

theorem selectNumCols_ok (df : Table) (T : Nat) :
    ∀ (names : List String),
    (∀ n ∈ names, ∃ cells, getCol df n = some cells ∧ cells.length = T ∧
      ∀ c ∈ cells, c = Cell.num 0 ∨ c = Cell.num 1) →
    ∃ cols, selectNumCols df names = .ok cols ∧ cols.length = names.length ∧
      ∀ col ∈ cols, col.length = T ∧ ∀ x ∈ col, x ≤ 1 := by
  intro names
  induction names with
  | nil =>
    intro _
    exact ⟨[], rfl, rfl, by simp⟩
  | cons n rest ih =>
    intro hpres
    obtain ⟨cells, hg, hclen, hbin⟩ := hpres n (List.mem_cons_self n rest)
    obtain ⟨ns, hns, hnlen, hnb⟩ := cellNumsOf_ok n cells hbin
    obtain ⟨cols, hcols, hcollen, hcolp⟩ := ih (fun x hx => hpres x (List.mem_cons_of_mem _ hx))
    refine ⟨ns :: cols, ?_, ?_, ?_⟩
    · simp [selectNumCols, hg, hns, hcols]
    · simp [hcollen]
    · intro col hcol
      rcases List.mem_cons.mp hcol with rfl | h2
      · exact ⟨hnlen.trans hclen, hnb⟩
      · exact hcolp col h2

theorem zipWith_add_le (k : Nat) :
    ∀ (acc col : List Nat), (∀ a ∈ acc, a ≤ k) → (∀ x ∈ col, x ≤ 1) →
    ∀ y ∈ List.zipWith (fun a b => a + b) acc col, y ≤ k + 1 := by
  intro acc
  induction acc with
  | nil =>
    intro col _ _ y hy
    simp at hy
  | cons a as ih =>
    intro col hacc hcol y hy
    cases col with
    | nil => simp at hy
    | cons b bs =>
      simp only [List.zipWith_cons_cons, List.mem_cons] at hy
      rcases hy with rfl | hy2
      · have h1 := hacc a (List.mem_cons_self a as)
        have h2 := hcol b (List.mem_cons_self b bs)
        omega
      · exact ih bs (fun x hx => hacc x (List.mem_cons_of_mem _ hx))
          (fun x hx => hcol x (List.mem_cons_of_mem _ hx)) y hy2

theorem foldl_zip_bound (T : Nat) :
    ∀ (cols : List (List Nat)) (acc : List Nat) (k : Nat),
    acc.length = T → (∀ a ∈ acc, a ≤ k) →
    (∀ col ∈ cols, col.length = T ∧ ∀ x ∈ col, x ≤ 1) →
    (cols.foldl (fun a col => List.zipWith (fun x y => x + y) a col) acc).length = T ∧
    ∀ y ∈ cols.foldl (fun a col => List.zipWith (fun x y => x + y) a col) acc,
      y ≤ k + cols.length := by
  intro cols
  induction cols with
  | nil =>
    intro acc k hlen hbound _
    exact ⟨hlen, by simpa using hbound⟩
  | cons col cols2 ih =>
    intro acc k hlen hbound hcols
    have hcol := hcols col (List.mem_cons_self col cols2)
    have hzlen : (List.zipWith (fun x y => x + y) acc col).length = T := by
      rw [List.length_zipWith, hlen, hcol.1, Nat.min_self]
    have hzb : ∀ y ∈ List.zipWith (fun x y => x + y) acc col, y ≤ k + 1 :=
      zipWith_add_le k acc col hbound hcol.2
    have hrec := ih (List.zipWith (fun x y => x + y) acc col) (k + 1) hzlen hzb
      (fun c hc => hcols c (List.mem_cons_of_mem _ hc))
    refine ⟨hrec.1, ?_⟩
    intro y hy
    have := hrec.2 y hy
    simp only [List.length_cons]
    omega

theorem analyzeGroup_count_total (df : Table) (sfx : String) (total : Nat) (g : Group)
    (hmin : g.min_correct = 0) (hmax : g.max_correct = g.questions.length)
    (hcols : ∀ q ∈ g.questions, ∃ cells, getCol df (q ++ sfx) = some cells ∧
      cells.length = nRows df ∧ ∀ c ∈ cells, c = Cell.num 0 ∨ c = Cell.num 1) :
    analyzeGroup df sfx total g =
      .ok { name := g.name, count := nRows df, total := total,
            percent := fmtPercent (nRows df) total } := by
  have hnames : ∀ n ∈ g.questions.map (fun q => q ++ sfx),
      ∃ cells, getCol df n = some cells ∧ cells.length = nRows df ∧
        ∀ c ∈ cells, c = Cell.num 0 ∨ c = Cell.num 1 := by
    intro n hn
    obtain ⟨q, hq, rfl⟩ := List.mem_map.mp hn
    exact hcols q hq
  obtain ⟨cols, hsel, hcollen, hcolp⟩ :=
    selectNumCols_ok df (nRows df) (g.questions.map (fun q => q ++ sfx)) hnames
  have hrep0 : ∀ a ∈ List.replicate (nRows df) 0, a ≤ 0 := by
    intro a ha
    rw [List.eq_of_mem_replicate ha]
  have hfold := foldl_zip_bound (nRows df) cols (List.replicate (nRows df) 0) 0
    (List.length_replicate (nRows df) 0) hrep0 hcolp
  have hsums_le : ∀ y ∈ cols.foldl (fun a col => List.zipWith (fun x y => x + y) a col)
      (List.replicate (nRows df) 0), y ≤ g.questions.length := by
    intro y hy
    have := hfold.2 y hy
    rw [hcollen, List.length_map] at this
    omega
  have hfilter : (cols.foldl (fun a col => List.zipWith (fun x y => x + y) a col)
      (List.replicate (nRows df) 0)).filter
        (fun s => g.min_correct ≤ s ∧ s ≤ g.max_correct) =
      cols.foldl (fun a col => List.zipWith (fun x y => x + y) a col)
        (List.replicate (nRows df) 0) := by
    apply List.filter_eq_self.mpr
    intro s hs
    simp only [decide_eq_true_eq, hmin, hmax]
    exact ⟨Nat.zero_le s, hsums_le s hs⟩
  simp only [analyzeGroup, rowSums, hsel]
  rw [hfilter, hfold.1]

theorem selectNumCols_error_of_missing (df : Table) :
    ∀ (names : List String), (∃ n ∈ names, n ∉ colNames df) →
    ∃ e, selectNumCols df names = .error e := by
  intro names
  induction names with
  | nil =>
    intro h
    simp at h
  | cons n rest ih =>
    intro h
    cases hg : getCol df n with
    | none => exact ⟨.missingColumn n, by simp [selectNumCols, hg]⟩
    | some cells =>
      obtain ⟨n', hn', hmem⟩ := h
      have hn'rest : n' ∈ rest := by
        rcases List.mem_cons.mp hn' with rfl | h2
        · exact absurd (mem_colNames_of_getCol hg) hmem
        · exact h2
      cases hc : cellNumsOf n cells with
      | error e => exact ⟨e, by simp [selectNumCols, hg, hc]⟩
      | ok xs =>
        obtain ⟨e, he⟩ := ih ⟨n', hn'rest, hmem⟩
        exact ⟨e, by simp [selectNumCols, hg, hc, he]⟩

theorem analyzeGroup_error_of_missing (df : Table) (sfx : String) (total : Nat) (g : Group)
    (h : ∃ q ∈ g.questions, (q ++ sfx) ∉ colNames df) :
    ∃ e, analyzeGroup df sfx total g = .error e := by
  obtain ⟨q, hq, hmem⟩ := h
  obtain ⟨e, he⟩ := selectNumCols_error_of_missing df (g.questions.map (fun q2 => q2 ++ sfx))
    ⟨q ++ sfx, List.mem_map_of_mem _ hq, hmem⟩
  exact ⟨e, by simp [analyzeGroup, rowSums, he]⟩

theorem runGroups_error_of_mem (df : Table) (sfx : String) (total : Nat) :
    ∀ (gs : List Group) (g : Group), g ∈ gs →
    (∃ e, analyzeGroup df sfx total g = .error e) →
    ∃ e2, runGroups df sfx total gs = .error e2 := by
  intro gs
  induction gs with
  | nil =>
    intro g hg _
    simp at hg
  | cons h rest ih =>
    intro g hg herr
    cases ha : analyzeGroup df sfx total h with
    | error e => exact ⟨e, by simp [runGroups, ha]⟩
    | ok r =>
      have hgrest : g ∈ rest := by
        rcases List.mem_cons.mp hg with rfl | h2
        · obtain ⟨e, he⟩ := herr
          rw [ha] at he
          exact Except.noConfusion he
        · exact h2
      obtain ⟨e2, he2⟩ := ih g hgrest herr
      exact ⟨e2, by simp [runGroups, ha, he2]⟩

theorem runGroups_getElem (df : Table) (sfx : String) (total : Nat) :
    ∀ (gs : List Group) (rs : List AResult), runGroups df sfx total gs = .ok rs →
    rs.length = gs.length ∧
    ∀ (i : Nat) (h1 : i < gs.length) (h2 : i < rs.length),
      analyzeGroup df sfx total gs[i] = .ok rs[i] := by
  intro gs
  induction gs with
  | nil =>
    intro rs h
    simp only [runGroups] at h
    cases h
    refine ⟨rfl, ?_⟩
    intro i h1
    simp at h1
  | cons g grest ih =>
    intro rs h
    simp only [runGroups] at h
    cases ha : analyzeGroup df sfx total g with
    | error e =>
      rw [ha] at h
      exact Except.noConfusion h
    | ok r =>
      rw [ha] at h
      cases hr : runGroups df sfx total grest with
      | error e =>
        rw [hr] at h
        exact Except.noConfusion h
      | ok rs2 =>
        rw [hr] at h
        cases h
        obtain ⟨hlen, hidx⟩ := ih rs2 hr
        refine ⟨by simp [hlen], ?_⟩
        intro i h1 h2
        cases i with
        | zero => simpa using ha
        | succ j =>
          simp only [List.getElem_cons_succ]
          exact hidx j (by simpa using h1) (by simpa using h2)

theorem sfx_data_len_ne_zero {sfx : String} (h : sfx ≠ "") : ¬sfx.data.length = 0 := by
  intro hlen
  apply h
  apply String.ext
  rw [List.length_eq_zero.mp hlen]

theorem fqc_eq_specClassify (df : Table) (sfx : String) (h : sfx ≠ "") :
    find_question_columns df sfx = specClassify (colNames df) sfx := by
  unfold find_question_columns specClassify
  apply List.filterMap_congr
  intro col _
  by_cases hs : sfx.data.isSuffixOf col.data
  · rw [if_pos hs, if_pos hs]
    unfold sliceDropSuffix
    rw [if_neg (sfx_data_len_ne_zero h)]
  · rw [if_neg hs, if_neg hs]

theorem fqc_nil_of_no_suffix (df : Table) (sfx : String)
    (h : ∀ col ∈ colNames df, sfx.data.isSuffixOf col.data = false) :
    find_question_columns df sfx = [] := by
  unfold find_question_columns
  apply List.filterMap_eq_nil_iff.mpr
  intro col hcol
  rw [if_neg]
  rw [h col hcol]
  exact Bool.false_ne_true

/-- Claim C1: end-to-end Scenario A — on the table with score columns Q1
and Q2 and rows ("1.00 / 1", "0.00 / 1") and ("1.00 / 1", "1.00 / 1"), the
classifier returns ["Q1", "Q2"], the normalizer produces the binary rows
[1, 0] and [1, 1], and the aggregator on the group with range [2, 2]
reports count 1 of total 2 with percent "50.0%". -/
theorem claim_C1_scenarioA :
    find_question_columns
        [("Q1 [Score]", [Cell.str "1.00 / 1", Cell.str "1.00 / 1"]),
         ("Q2 [Score]", [Cell.str "0.00 / 1", Cell.str "1.00 / 1"])] " [Score]" =
      ["Q1", "Q2"] ∧
    pre_process_scores
        [("Q1 [Score]", [Cell.str "1.00 / 1", Cell.str "1.00 / 1"]),
         ("Q2 [Score]", [Cell.str "0.00 / 1", Cell.str "1.00 / 1"])]
        ["Q1", "Q2"] "1.00" " [Score]" =
      .ok [("Q1 [Score]", [Cell.num 1, Cell.num 1]),
           ("Q2 [Score]", [Cell.num 0, Cell.num 1])] ∧
    run_mastery_analysis
        [("Q1 [Score]", [Cell.num 1, Cell.num 1]),
         ("Q2 [Score]", [Cell.num 0, Cell.num 1])]
        [{ name := "Target", questions := ["Q1", "Q2"], min_correct := 2, max_correct := 2 }]
        " [Score]" =
      .ok [{ name := "Target", count := 1, total := 2, percent := "50.0%" }] :=
  ⟨by decide, by decide, by decide⟩

/-- Claim C2 counterexample: with the empty suffix every column "ends
with" the suffix, but the classifier emits the empty string (Python
`col[:-0]` is `col[:0]`) instead of the base name with zero characters
removed, so the claimed characterization fails at `sfx = ""`. -/
theorem claim_C2_cex :
    find_question_columns [("a", [])] "" = [""] ∧
    specClassify (colNames [("a", [])]) "" = ["a"] ∧
    find_question_columns [("a", [])] "" ≠ specClassify (colNames [("a", [])]) "" :=
  ⟨by decide, by decide, by decide⟩

/-- Claim C2 (amended): for every NON-EMPTY suffix, the classifier returns
exactly the base names (suffix characters removed) of the columns ending
with the suffix, preserving order, and the empty sequence when no column
matches. -/
theorem claim_C2_amended (df : Table) (sfx : String) (h : sfx ≠ "") :
    find_question_columns df sfx = specClassify (colNames df) sfx ∧
    ((∀ col ∈ colNames df, sfx.data.isSuffixOf col.data = false) →
      find_question_columns df sfx = []) :=
  ⟨fqc_eq_specClassify df sfx h, fqc_nil_of_no_suffix df sfx⟩

/-- Witness for claim C2 (amended) at a concrete table and suffix. -/
theorem claim_C2_amended_witness :
    find_question_columns [("Q1 [Score]", []), ("Name", [])] " [Score]" =
      specClassify (colNames [("Q1 [Score]", []), ("Name", [])]) " [Score]" ∧
    ((∀ col ∈ colNames [("Q1 [Score]", []), ("Name", [])],
        (" [Score]" : String).data.isSuffixOf col.data = false) →
      find_question_columns [("Q1 [Score]", []), ("Name", [])] " [Score]" = []) :=
  claim_C2_amended [("Q1 [Score]", []), ("Name", [])] " [Score]" (by decide)

/-- Claim C3: a column whose normalized name matches one of the fixed
allow synonyms (case-insensitively, at word boundaries) is never listed in
`offending_columns`, even if the name also contains a block token — the
allow match exempts the column from the block check entirely. -/
theorem claim_C3_allowlist (cols : List String) (col : String)
    (h : specAllowMatch (normalizeName col.data) = true) :
    col ∉ (validate_pii cols).2 := by
  intro hmem
  unfold validate_pii at hmem
  have hoff := (List.mem_filter.mp hmem).2
  simp only [offendingCol] at hoff
  rw [allowlist_of_spec h] at hoff
  simp at hoff

/-- Witness for claim C3: the column "Student ID" is not flagged. -/
theorem claim_C3_witness : "Student ID" ∉ (validate_pii ["Student ID"]).2 :=
  claim_C3_allowlist ["Student ID"] "Student ID" (by decide)

/-- Claim C4 counterexample: "sid email" contains the block token "email"
as a whole word, yet `validate_pii` does not flag it — the allowlist
token "sid" exempts the whole column first. -/
theorem claim_C4_cex :
    specBlockMatch (normalizeName ("sid email".data)) = true ∧
    validate_pii ["sid email"] = (true, []) :=
  ⟨by decide, by decide⟩

/-- Claim C4 (amended): a column containing a block token as a whole word
is flagged as offending unless its normalized name matches the allowlist
pattern, which exempts it; in particular "Student ID" is never flagged and
"Student Email", whenever present, is always flagged. -/
theorem claim_C4_amended (cols : List String) (col : String) :
    (col ∈ cols → specBlockMatch (normalizeName col.data) = true →
      reSearch PII_ALLOWLIST_PATTERN (normalizeName col.data) = false →
      col ∈ (validate_pii cols).2) ∧
    "Student ID" ∉ (validate_pii cols).2 ∧
    ("Student Email" ∈ cols → "Student Email" ∈ (validate_pii cols).2) := by
  refine ⟨?_, ?_, ?_⟩
  · intro hmem hblock hallow
    unfold validate_pii
    apply List.mem_filter.mpr
    refine ⟨hmem, ?_⟩
    simp only [offendingCol]
    rw [hallow, blockFlag_of_spec hblock]
    rfl
  · intro hmem
    have hoff := (List.mem_filter.mp hmem).2
    have hno : offendingCol "Student ID" = false := by decide
    rw [hno] at hoff
    exact Bool.noConfusion hoff
  · intro hmem
    unfold validate_pii
    exact List.mem_filter.mpr ⟨hmem, by decide⟩

/-- Witness for claim C4 (amended): "Student Email" is flagged via the
block implication, with each hypothesis checked concretely. -/
theorem claim_C4_amended_witness :
    "Student Email" ∈ (validate_pii ["Student Email"]).2 :=
  (claim_C4_amended ["Student Email"] "Student Email").1 (by decide) (by decide) (by decide)

/-- Claim C5 counterexample: with the duplicated question list ["Q", "Q"]
the score column is converted twice; the raw cell "1.00 / 1" starts with
the prefix so the claim demands 1, but the second pass maps the interim
cell 1 (text "1", which does not start with "1.00") to 0. -/
theorem claim_C5_cex :
    pre_process_scores [("Q [S]", [Cell.str "1.00 / 1"])] ["Q", "Q"] "1.00" " [S]" =
      .ok [("Q [S]", [Cell.num 0])] ∧
    ("1.00" : String).data.isPrefixOf ("1.00 / 1" : String).data = true :=
  ⟨by decide, by decide⟩

/-- Claim C5 (amended): for a question list without repeats whose score
columns all exist, the normalizer succeeds with a table of the same shape:
every score column is the binary image of the original column (1 exactly
when the cell text starts with the prefix, hence every cell is 0 or 1) and
every other column is unchanged. -/
theorem claim_C5_amended (raw : Table) (qs : List String) (pfx sfx : String)
    (hnd : qs.Nodup) (hpres : ∀ q ∈ qs, (q ++ sfx) ∈ colNames raw) :
    ∃ out, pre_process_scores raw qs pfx sfx = .ok out ∧
      colNames out = colNames raw ∧
      (∀ q ∈ qs, ∃ cells, getCol raw (q ++ sfx) = some cells ∧
        getCol out (q ++ sfx) = some (cells.map (binCell pfx))) ∧
      (∀ q ∈ qs, ∀ cells2, getCol out (q ++ sfx) = some cells2 →
        ∀ c ∈ cells2, c = Cell.num 0 ∨ c = Cell.num 1) ∧
      (∀ name, (∀ q ∈ qs, name ≠ q ++ sfx) → getCol out name = getCol raw name) := by
  obtain ⟨out, h1, h2, h3, h4⟩ := preProcessGo_ok pfx sfx qs raw hnd hpres
  refine ⟨out, h1, h2, h3, ?_, h4⟩
  intro q hq cells2 hc2 c hc
  obtain ⟨cells, hcells, hout⟩ := h3 q hq
  rw [hout] at hc2
  injection hc2 with hc2
  rw [← hc2] at hc
  obtain ⟨c0, _, rfl⟩ := List.mem_map.mp hc
  unfold binCell
  by_cases hb : pfx.data.isPrefixOf (cellText c0).data = true
  · rw [if_pos hb]
    right
    rfl
  · rw [if_neg hb]
    left
    rfl

/-- Witness for claim C5 (amended) at a concrete one-column table. -/
theorem claim_C5_amended_witness :
    ∃ out, pre_process_scores [("Q1 [Score]", [Cell.str "1.00 / 1"])] ["Q1"]
        "1.00" " [Score]" = .ok out ∧
      colNames out = colNames [("Q1 [Score]", [Cell.str "1.00 / 1"])] ∧
      (∀ q ∈ ["Q1"], ∃ cells,
        getCol [("Q1 [Score]", [Cell.str "1.00 / 1"])] (q ++ " [Score]") = some cells ∧
        getCol out (q ++ " [Score]") = some (cells.map (binCell "1.00"))) ∧
      (∀ q ∈ ["Q1"], ∀ cells2, getCol out (q ++ " [Score]") = some cells2 →
        ∀ c ∈ cells2, c = Cell.num 0 ∨ c = Cell.num 1) ∧
      (∀ name, (∀ q ∈ ["Q1"], name ≠ q ++ " [Score]") →
        getCol out name = getCol [("Q1 [Score]", [Cell.str "1.00 / 1"])] name) :=
  claim_C5_amended [("Q1 [Score]", [Cell.str "1.00 / 1"])] ["Q1"] "1.00" " [Score]"
    (by decide) (by decide)

/-- Claim C6: for a non-empty binary table, every group of a successful
run whose accepted range is [0, |questions|] reports count equal to total,
the table's row count. -/
theorem claim_C6_full_range (df : Table) (groups : List Group) (sfx : String)
    (rs : List AResult) (i : Nat) (h1 : i < groups.length)
    (hrun : run_mastery_analysis df groups sfx = .ok rs)
    (h0 : nRows df ≠ 0)
    (hmin : groups[i].min_correct = 0)
    (hmax : groups[i].max_correct = groups[i].questions.length)
    (hbin : ∀ q ∈ groups[i].questions, ∃ cells, getCol df (q ++ sfx) = some cells ∧
      cells.length = nRows df ∧ ∀ c ∈ cells, c = Cell.num 0 ∨ c = Cell.num 1) :
    ∃ h2 : i < rs.length, rs[i].count = rs[i].total ∧ rs[i].total = nRows df := by
  simp only [run_mastery_analysis] at hrun
  rw [if_neg h0] at hrun
  obtain ⟨hlen, hidx⟩ := runGroups_getElem df sfx (nRows df) groups rs hrun
  have h2 : i < rs.length := by omega
  refine ⟨h2, ?_⟩
  have hag := hidx i h1 h2
  rw [analyzeGroup_count_total df sfx (nRows df) groups[i] hmin hmax hbin] at hag
  injection hag with hag
  rw [← hag]
  exact ⟨rfl, rfl⟩

/-- Witness for claim C6 at a one-question, one-student binary table. -/
theorem claim_C6_witness :
    ∃ h2 : 0 < ([{ name := "G", count := 1, total := 1, percent := "100.0%" }] :
        List AResult).length,
      ([{ name := "G", count := 1, total := 1, percent := "100.0%" }] :
        List AResult)[0].count =
        ([{ name := "G", count := 1, total := 1, percent := "100.0%" }] :
          List AResult)[0].total ∧
      ([{ name := "G", count := 1, total := 1, percent := "100.0%" }] :
        List AResult)[0].total = nRows [("Q1 [Score]", [Cell.num 1])] :=
  claim_C6_full_range [("Q1 [Score]", [Cell.num 1])]
    [{ name := "G", questions := ["Q1"], min_correct := 0, max_correct := 1 }] " [Score]"
    [{ name := "G", count := 1, total := 1, percent := "100.0%" }] 0
    (by decide) (by decide) (by decide) (by decide) (by decide)
    (by
      intro q hq
      have hq1 : q = "Q1" := by simpa using hq
      subst hq1
      exact ⟨[Cell.num 1], by decide, by decide, by decide⟩)

/-- Claim C7: on a table with zero rows the aggregator returns the empty
result sequence immediately, for every group list, so the percentage
division is never reached with a zero denominator. -/
theorem claim_C7_empty_table (df : Table) (groups : List Group) (sfx : String)
    (h : nRows df = 0) : run_mastery_analysis df groups sfx = .ok [] := by
  simp only [run_mastery_analysis]
  rw [if_pos h]

/-- Witness for claim C7: a zero-row table with a column and a group. -/
theorem claim_C7_witness :
    run_mastery_analysis [("Q1 [Score]", [])]
      [{ name := "G", questions := ["Q1"], min_correct := 0, max_correct := 1 }]
      " [Score]" = .ok [] :=
  claim_C7_empty_table [("Q1 [Score]", [])]
    [{ name := "G", questions := ["Q1"], min_correct := 0, max_correct := 1 }]
    " [Score]" (by decide)

/-- Claim C8: whenever some constructed score column is absent from the
table, the normalizer fails with a missing-column error instead of
skipping the question or defaulting its cells. -/
theorem claim_C8_missing_column (raw : Table) (qs : List String) (pfx sfx : String)
    (h : ∃ q ∈ qs, (q ++ sfx) ∉ colNames raw) :
    ∃ name, pre_process_scores raw qs pfx sfx = .error (.missingColumn name) :=
  preProcessGo_missing pfx sfx qs raw h

/-- Witness for claim C8: a table without the expected score column. -/
theorem claim_C8_witness :
    ∃ name, pre_process_scores [("Name", [Cell.str "Ada"])] ["Q1"] "1.00" " [Score]" =
      .error (.missingColumn name) :=
  claim_C8_missing_column [("Name", [Cell.str "Ada"])] ["Q1"] "1.00" " [Score]" (by decide)

/-- Claim C9 counterexample: on a zero-row table the aggregator returns
the empty result list before selecting any column, even though the group
references a score column that is absent — it does not fail. -/
theorem claim_C9_cex :
    ("Q" ++ " [S]") ∉ colNames ([] : Table) ∧
    run_mastery_analysis []
      [{ name := "G", questions := ["Q"], min_correct := 0, max_correct := 1 }] " [S]" =
      .ok [] :=
  ⟨by decide, by decide⟩

/-- Claim C9 (amended): for a table with at least one row, a group list
containing a group that references a missing score column makes the whole
run fail with an exception — no results are returned at all, not even for
earlier well-formed groups. -/
theorem claim_C9_amended (df : Table) (groups : List Group) (sfx : String) (g : Group)
    (h0 : nRows df ≠ 0) (hg : g ∈ groups)
    (hmiss : ∃ q ∈ g.questions, (q ++ sfx) ∉ colNames df) :
    ∃ e, run_mastery_analysis df groups sfx = .error e := by
  obtain ⟨e2, he2⟩ := runGroups_error_of_mem df sfx (nRows df) groups g hg
    (analyzeGroup_error_of_missing df sfx (nRows df) g hmiss)
  refine ⟨e2, ?_⟩
  simp only [run_mastery_analysis]
  rw [if_neg h0]
  exact he2

/-- Witness for claim C9 (amended): a well-formed first group does not
save the run when the second group references a missing column. -/
theorem claim_C9_amended_witness :
    ∃ e, run_mastery_analysis [("A [S]", [Cell.num 1])]
      [{ name := "Good", questions := ["A"], min_correct := 0, max_correct := 1 },
       { name := "Bad", questions := ["Z"], min_correct := 0, max_correct := 1 }]
      " [S]" = .error e :=
  claim_C9_amended [("A [S]", [Cell.num 1])]
    [{ name := "Good", questions := ["A"], min_correct := 0, max_correct := 1 },
     { name := "Bad", questions := ["Z"], min_correct := 0, max_correct := 1 }]
    " [S]" { name := "Bad", questions := ["Z"], min_correct := 0, max_correct := 1 }
    (by decide) (by decide) (by decide)

/-- Claim C10: with the empty suffix the classifier returns the empty
string once per input column, because the Python slice `col[:-0]` is the
empty string — not the full column name. -/
theorem claim_C10_empty_suffix (df : Table) :
    find_question_columns df "" = (colNames df).map (fun _ => "") := by
  unfold find_question_columns
  suffices hall : ∀ cols : List String,
      (cols.filterMap fun col =>
        if ("" : String).data.isSuffixOf col.data then some (sliceDropSuffix col "") else none) =
      cols.map (fun _ => "") by exact hall (colNames df)
  intro cols
  induction cols with
  | nil => rfl
  | cons c cs ih =>
    rw [List.filterMap_cons, List.map_cons]
    have hsuf : ("" : String).data.isSuffixOf c.data = true := List.isSuffixOf_nil_left
    rw [if_pos hsuf]
    have hsl : sliceDropSuffix c "" = "" := rfl
    rw [hsl, ih]

/-- Scenario B of the spec: "Parent Email Address" is flagged through the
`email` token. -/
theorem scenarioB_parent_email :
    validate_pii ["Parent Email Address"] = (false, ["Parent Email Address"]) := by decide

/-- Scenario B of the spec: "Student_Assessment_ID" is exempted by the
allowlist after underscore normalization. -/
theorem scenarioB_student_assessment_id :
    validate_pii ["Student_Assessment_ID"] = (true, []) := by decide

end AssessmentAnalyzer
